import Mathlib

/-!
Verification of the suggestion-making core of a phonetic input-method engine
(`src/phonetic/suggestion.rs`).

Strings are modelled as lists of Unicode code points (`Str := List Char`).
Rust's `&str` byte slicing (`s[i..]`, `s[a..b]`, `s.len()`) works on UTF-8
byte offsets and panics when an offset is not a character boundary, so the
embedding tracks UTF-8 byte widths explicitly: `utf8Len` is the byte width
of one code point, `byteLen` the byte length of a string, and the slicing
operations return `none` exactly where Rust would panic (offset out of
range or inside a multi-byte character).

External collaborators (the dictionary, the transliterator and the
character classifiers, which live outside this crate's suggestion module)
are modelled as an environment record of abstract functions, following the
spec's collaborator contracts.
-/

abbrev Str := List Char

/-- UTF-8 byte width of a single code point. -/
def utf8Len (c : Char) : Nat :=
  if c.toNat < 0x80 then 1
  else if c.toNat < 0x800 then 2
  else if c.toNat < 0x10000 then 3
  else 4

/-- UTF-8 byte length of a string, i.e. Rust's `str::len`. -/
def byteLen : Str → Nat
  | [] => 0
  | c :: s => utf8Len c + byteLen s

/-- Rust `&s[i..]`: drop the first `i` bytes; `none` models the panic when
`i` is out of range or not a character boundary. -/
def sliceFrom : Str → Nat → Option Str
  | s, 0 => some s
  | [], _ + 1 => none
  | c :: s, i + 1 => if utf8Len c ≤ i + 1 then sliceFrom s (i + 1 - utf8Len c) else none

/-- Rust `&s[..i]`: take the first `i` bytes; `none` models the panic. -/
def sliceTo : Str → Nat → Option Str
  | _, 0 => some []
  | [], _ + 1 => none
  | c :: s, i + 1 =>
    if utf8Len c ≤ i + 1 then (sliceTo s (i + 1 - utf8Len c)).map (c :: ·) else none

/-- Rust `&s[a..b]` byte-range slicing; `none` models the panic. -/
def rustSlice (s : Str) (a b : Nat) : Option Str :=
  if a ≤ b then (sliceFrom s a).bind (fun t => sliceTo t (b - a)) else none

theorem one_le_utf8Len (c : Char) : 1 ≤ utf8Len c := by
  unfold utf8Len
  split
  · exact Nat.le_refl 1
  · split
    · omega
    · split <;> omega

theorem byteLen_append (u v : Str) : byteLen (u ++ v) = byteLen u + byteLen v := by
  induction u with
  | nil => simp [byteLen]
  | cons c u ih => simp [byteLen, ih]; omega

theorem sliceFrom_append (u v : Str) : sliceFrom (u ++ v) (byteLen u) = some v := by
  induction u with
  | nil => simp [byteLen, sliceFrom]
  | cons c u ih =>
    have h1 : 1 ≤ utf8Len c := one_le_utf8Len c
    have h : utf8Len c + byteLen u = (utf8Len c + byteLen u - 1) + 1 := by omega
    simp only [List.cons_append, byteLen]
    rw [h, sliceFrom]
    have hle : utf8Len c ≤ (utf8Len c + byteLen u - 1) + 1 := by omega
    rw [if_pos hle]
    have : (utf8Len c + byteLen u - 1) + 1 - utf8Len c = byteLen u := by omega
    rw [this]
    exact ih

theorem sliceTo_append (u v : Str) : sliceTo (u ++ v) (byteLen u) = some u := by
  induction u with
  | nil => simp [byteLen, sliceTo]
  | cons c u ih =>
    have h1 : 1 ≤ utf8Len c := one_le_utf8Len c
    have h : utf8Len c + byteLen u = (utf8Len c + byteLen u - 1) + 1 := by omega
    simp only [List.cons_append, byteLen]
    rw [h, sliceTo]
    have hle : utf8Len c ≤ (utf8Len c + byteLen u - 1) + 1 := by omega
    rw [if_pos hle]
    have : (utf8Len c + byteLen u - 1) + 1 - utf8Len c = byteLen u := by omega
    rw [this, ih]
    rfl

/-- A string all of whose code points are ASCII (1 byte) has byte length
equal to its character length. -/
theorem byteLen_eq_length (s : Str) (h : ∀ c ∈ s, utf8Len c = 1) :
    byteLen s = s.length := by
  induction s with
  | nil => rfl
  | cons c s ih =>
    have hc : utf8Len c = 1 := h c (List.mem_cons_self c s)
    simp [byteLen, hc, ih (fun x hx => h x (List.mem_cons_of_mem c hx))]
    omega

/-- The fixed meta/punctuation set from `split_string`
(the Rust string literal `-]~!@#%&*()_=+[{}'";<>/?|.,`). -/
def metaChars : List Char :=
  ['-', ']', '~', '!', '@', '#', '%', '&', '*', '(', ')', '_', '=', '+', '[',
   Char.ofNat 123, Char.ofNat 125, Char.ofNat 39, Char.ofNat 34,
   ';', '<', '>', '/', '?', '|', '.', ',']

/-- Rust `meta.contains(c)`. -/
def isMetaChar (c : Char) : Bool := metaChars.contains c

theorem utf8Len_of_meta (c : Char) (h : isMetaChar c = true) : utf8Len c = 1 := by
  have hmem : c ∈ metaChars := by
    simp only [isMetaChar] at h
    exact List.mem_of_elem_eq_true h
  have hall : ∀ x ∈ metaChars, utf8Len x = 1 := by decide
  exact hall c hmem

/-- Index of the first element satisfying `p`, mirroring the `for`-loop
with `break` in `split_string`. -/
def findIdxOpt (p : Char → Bool) : Str → Option Nat
  | [] => none
  | c :: s => if p c then some 0 else (findIdxOpt p s).map (· + 1)

theorem findIdxOpt_none {p : Char → Bool} :
    ∀ {s : Str}, findIdxOpt p s = none → ∀ c ∈ s, p c = false := by
  intro s
  induction s with
  | nil => intro _ c hc; cases hc
  | cons a s ih =>
    intro h c hc
    by_cases ha : p a = true
    · simp [findIdxOpt, ha] at h
    · rcases List.mem_cons.mp hc with rfl | hmem
      · exact Bool.eq_false_iff.mpr ha
      · have : findIdxOpt p s = none := by
          by_contra hne
          rcases Option.ne_none_iff_exists'.mp hne with ⟨k, hk⟩
          simp [findIdxOpt, ha, hk] at h
        exact ih this c hmem

theorem findIdxOpt_ne_none {p : Char → Bool} :
    ∀ {s : Str} {c : Char}, c ∈ s → p c = true → findIdxOpt p s ≠ none := by
  intro s c hc hp h
  have := findIdxOpt_none h c hc
  rw [hp] at this
  cases this

theorem findIdxOpt_some {p : Char → Bool} :
    ∀ {s : Str} {k : Nat}, findIdxOpt p s = some k →
      ∃ u c v, s = u ++ c :: v ∧ u.length = k ∧ (∀ x ∈ u, p x = false) ∧ p c = true := by
  intro s
  induction s with
  | nil => intro k h; simp [findIdxOpt] at h
  | cons a s ih =>
    intro k h
    by_cases ha : p a = true
    · simp [findIdxOpt, ha] at h
      exact ⟨[], a, s, by simp, by simp [← h], by simp, ha⟩
    · simp [findIdxOpt, ha] at h
      rcases h with ⟨k', hk', rfl⟩
      rcases ih hk' with ⟨u, c, v, hs, hlen, hu, hc⟩
      exact ⟨a :: u, c, v, by simp [hs], by simp [hlen], by
        intro x hx
        rcases List.mem_cons.mp hx with rfl | hmem
        · exact Bool.eq_false_iff.mpr ha
        · exact hu x hmem, hc⟩

/-- Embedding of `split_string` (suggestion.rs, lines 150–183).

The Rust function computes `first_index` as a *character* index (from
`chars().enumerate()`) but then uses it as a *byte* offset, and computes
`last_index` from the *byte* length minus a *character* count; the
embedding reproduces this mix faithfully.  `none` models a slicing panic. -/
def split_string (input : Str) : Option (Str × Str × Str) :=
  match findIdxOpt (fun c => !(isMetaChar c)) input with
  | none => some (input, [], [])
  | some first_index =>
    let last_index : Nat :=
      match findIdxOpt (fun c => !(isMetaChar c)) input.reverse with
      | some j => byteLen input - j - 1
      | none => 0
    match rustSlice input 0 first_index,
          rustSlice input first_index (last_index + 1),
          sliceFrom input (last_index + 1) with
    | some fp, some mp, some lp => some (fp, mp, lp)
    | _, _, _ => none

/-- Full characterization of `split_string`: it always succeeds (never hits a
byte-boundary panic), and the three parts satisfy the segmentation
invariants.  The leading and trailing meta runs consist of ASCII characters
only, which is why the character-index/byte-index confusion inside the Rust
function never produces an out-of-boundary slice. -/
theorem split_string_spec (input : Str) :
    ∃ fp mp lp, split_string input = some (fp, mp, lp) ∧
      fp ++ mp ++ lp = input ∧
      (∀ c ∈ fp, isMetaChar c = true) ∧
      (∀ c ∈ lp, isMetaChar c = true) ∧
      (mp = [] → fp = input ∧ lp = []) ∧
      (∀ c, mp.head? = some c → isMetaChar c = false) ∧
      (∀ c, mp.getLast? = some c → isMetaChar c = false) := by
  cases hfind : findIdxOpt (fun c => !(isMetaChar c)) input with
  | none =>
    refine ⟨input, [], [], ?_, by simp, ?_, by simp, fun _ => ⟨rfl, rfl⟩, by simp, by simp⟩
    · simp [split_string, hfind]
    · intro c hc
      have := findIdxOpt_none hfind c hc
      simpa using this
  | some k =>
    rcases findIdxOpt_some hfind with ⟨u, c, v, hin, hulen, humeta', hc⟩
    have humeta : ∀ x ∈ u, isMetaChar x = true := by
      intro x hx; have := humeta' x hx; simpa using this
    have hcnm : isMetaChar c = false := by simpa using hc
    -- the backward scan finds a non-meta character as well
    have hcrev : c ∈ input.reverse := by
      rw [List.mem_reverse, hin]; exact List.mem_append_right u (List.mem_cons_self c v)
    cases hrev : findIdxOpt (fun c => !(isMetaChar c)) input.reverse with
    | none => exact absurd hrev (findIdxOpt_ne_none hcrev hc)
    | some j =>
      rcases findIdxOpt_some hrev with ⟨u', c', v', hinrev, hulen', humeta'', hc'⟩
      have hc'nm : isMetaChar c' = false := by simpa using hc'
      have hBmeta : ∀ x ∈ u'.reverse, isMetaChar x = true := by
        intro x hx
        have := humeta'' x (List.mem_reverse.mp hx)
        simpa using this
      -- input = D ++ c' :: B with B the trailing all-meta run
      have hin2 : input = v'.reverse ++ c' :: u'.reverse := by
        have := congrArg List.reverse hinrev
        simpa using this
      set D := v'.reverse with hD
      set B := u'.reverse with hB
      -- byte lengths of the meta runs equal their character lengths
      have hubyte : byteLen u = u.length :=
        byteLen_eq_length u (fun x hx => utf8Len_of_meta x (humeta x hx))
      have hBbyte : byteLen B = B.length :=
        byteLen_eq_length B (fun x hx => utf8Len_of_meta x (hBmeta x hx))
      have hBlen : B.length = j := by rw [hB, List.length_reverse, hulen']
      -- the forward index is at most the backward one
      have hle : u.length ≤ D.length := by
        by_contra hlt
        push_neg at hlt
        have h1 : input[D.length]? = some c' := by
          rw [hin2]
          rw [List.getElem?_append_right (Nat.le_refl D.length)]
          simp
        have h2 : input[D.length]? = u[D.length]? := by
          rw [hin, List.getElem?_append_left hlt]
        have h3 : u[D.length]? = some u[D.length] := List.getElem?_eq_getElem hlt
        have hc'u : c' ∈ u := by
          have : some u[D.length] = some c' := by rw [← h3, ← h2, h1]
          have he : u[D.length] = c' := Option.some.inj this
          rw [← he]; exact List.getElem_mem hlt
        rw [humeta c' hc'u] at hc'nm
        cases hc'nm
      -- peel u off the front of D
      have huD : u = D.take u.length := by
        have h1 : input.take u.length = u := by
          rw [hin]; exact List.take_left u (c :: v)
        have h2 : input.take u.length = D.take u.length := by
          rw [hin2]; exact List.take_append_of_le_length hle
        rw [h1] at h2
        exact h2
      have hDE : D = u ++ D.drop u.length := by
        conv_lhs => rw [← List.take_append_drop u.length D, ← huD]
      set E := D.drop u.length with hE
      set mid := E ++ [c'] with hmid
      have hin3 : input = u ++ (mid ++ B) := by
        rw [hin2, hDE, hmid]; simp
      have hmidne : mid ≠ [] := by simp [hmid]
      -- identify the head of mid with the forward-scan character
      have hcv : c :: v = mid ++ B := by
        have : u ++ c :: v = u ++ (mid ++ B) := by rw [← hin, ← hin3]
        exact List.append_cancel_left this
      have hmidhead : mid.head? = some c := by
        cases hm : mid with
        | nil => exact absurd hm hmidne
        | cons m0 mrest =>
          rw [hm] at hcv
          simp at hcv
          simp [hcv.1]
      have hmidlast : mid.getLast? = some c' := by
        rw [hmid]; exact List.getLast?_concat E
      -- byte-offset arithmetic for the three slices
      have hbyte_in : byteLen input = byteLen u + byteLen mid + byteLen B := by
        rw [hin3, byteLen_append, byteLen_append]; omega
      have hmidpos : 1 ≤ byteLen mid := by
        rw [hmid, byteLen_append]
        have := one_le_utf8Len c'
        simp [byteLen]; omega
      have hlast : byteLen input - j - 1 + 1 = byteLen u + byteLen mid := by
        rw [hbyte_in, hBbyte, hBlen]; omega
      have h1 : rustSlice input 0 k = some u := by
        rw [rustSlice, if_pos (Nat.zero_le k)]
        show (sliceFrom input 0).bind (fun t => sliceTo t (k - 0)) = some u
        have hs0 : sliceFrom input 0 = some input := by cases input <;> rfl
        rw [hs0]
        show sliceTo input (k - 0) = some u
        rw [Nat.sub_zero, ← hulen, ← hubyte, hin3]
        exact sliceTo_append u (mid ++ B)
      have h2 : rustSlice input k (byteLen u + byteLen mid) = some mid := by
        rw [rustSlice, if_pos (by rw [← hulen, ← hubyte]; omega)]
        rw [← hulen, ← hubyte, hin3, sliceFrom_append]
        show sliceTo (mid ++ B) (byteLen u + byteLen mid - byteLen u) = some mid
        have : byteLen u + byteLen mid - byteLen u = byteLen mid := by omega
        rw [this]
        exact sliceTo_append mid B
      have h3 : sliceFrom input (byteLen u + byteLen mid) = some B := by
        have : input = (u ++ mid) ++ B := by rw [hin3]; simp
        rw [this, ← byteLen_append]
        exact sliceFrom_append (u ++ mid) B
      refine ⟨u, mid, B, ?_, by rw [hin3]; simp, humeta, hBmeta, fun hm => absurd hm hmidne,
        ?_, ?_⟩
      · show split_string input = some (u, mid, B)
        rw [split_string, hfind, hrev]
        simp only
        rw [hlast, h1, h2, h3]
      · intro x hx
        rw [hmidhead] at hx
        rw [← Option.some.inj hx]
        exact hcnm
      · intro x hx
        rw [hmidlast] at hx
        rw [← Option.some.inj hx]
        exact hc'nm

/-- C1: `split_string` is a total function over every string input, including
the empty string; it always slices on code-point boundaries, so evaluation
never reaches a panicking byte slice (`none`) and no multi-byte character is
ever split (the embedding's slices return `none` exactly on non-boundary
offsets). -/
theorem C1_split_string_total (s : Str) :
    ∃ fp mp lp, split_string s = some (fp, mp, lp) := by
  rcases split_string_spec s with ⟨fp, mp, lp, h, _⟩
  exact ⟨fp, mp, lp, h⟩

/-- C2: segmentation round-trip — whenever `split_string s` returns
`(fp, mp, lp)`, the three parts concatenate back to `s`; `fp` and `lp`
contain only meta characters; the first and last characters of `mp` are not
meta; and when `s` has no non-meta character the core and the trailing part
are both empty (the whole input is the leading part). -/
theorem C2_split_string_roundtrip (s fp mp lp : Str)
    (h : split_string s = some (fp, mp, lp)) :
    fp ++ mp ++ lp = s ∧
    (∀ c ∈ fp, isMetaChar c = true) ∧
    (∀ c ∈ lp, isMetaChar c = true) ∧
    (mp = [] → fp = s ∧ lp = []) ∧
    (∀ c, mp.head? = some c → isMetaChar c = false) ∧
    (∀ c, mp.getLast? = some c → isMetaChar c = false) := by
  rcases split_string_spec s with ⟨fp', mp', lp', h', hrt, hfp, hlp, hemp, hhead, hlast⟩
  rw [h] at h'
  obtain ⟨rfl, rfl, rfl⟩ : fp = fp' ∧ mp = mp' ∧ lp = lp' := by
    have := Option.some.inj h'
    exact ⟨congrArg (·.1) this, congrArg (·.2.1) this, congrArg (·.2.2) this⟩
  exact ⟨hrt, hfp, hlp, hemp, hhead, hlast⟩

/-- Witness for C2 at the concrete input `"(as)"` from the repository's own
test suite. -/
theorem C2_witness :
    ['('] ++ ['a', 's'] ++ [')'] = ['(', 'a', 's', ')'] ∧
    (∀ c ∈ ['('], isMetaChar c = true) ∧
    (∀ c ∈ [')'], isMetaChar c = true) ∧
    ((['a', 's'] : Str) = [] → ['('] = ['(', 'a', 's', ')'] ∧ [')'] = []) ∧
    (∀ c, (['a', 's'] : Str).head? = some c → isMetaChar c = false) ∧
    (∀ c, (['a', 's'] : Str).getLast? = some c → isMetaChar c = false) :=
  C2_split_string_roundtrip ['(', 'a', 's', ')'] ['('] ['a', 's'] [')'] (by decide)

/-! ## Suffix composer and suggestion orchestrator -/

/-- Bengali Khandatta (`\u{09CE}`). -/
def khandatta : Char := Char.ofNat 0x09CE

/-- Bengali Anushar / anusvara (`\u{0982}`). -/
def anushar : Char := Char.ofNat 0x0982

/-- The semivowel-glide connector inserted between a vowel and a kar
(`\u{09DF}`). -/
def glideYa : Char := Char.ofNat 0x09DF

/-- The plain consonant substituted for a trailing Khandatta (`\u{09A4}`). -/
def taChar : Char := Char.ofNat 0x09A4

/-- The nasal consonant substituted for a trailing Anushar (`\u{0999}`). -/
def ngaChar : Char := Char.ofNat 0x0999

/-- External collaborators of the suggestion module, per the spec's
interface contracts (§6): the character classifiers of the `Utility` trait,
the three `Database` lookups and the `AvroPhonetic` transliterator.  All
are pure functions outside the verified module, so they are abstract
parameters here. -/
structure Env where
  is_vowel : Char → Bool
  is_kar : Char → Bool
  find_suffix : Str → Option Str
  search_dictionary : Str → List Str
  get_corrected : Str → Option Str
  convert : Str → Str

/-- The orchestrator's session cache (`FxHashMap<String, Vec<String>>`),
modelled as an association list queried by exact key. -/
abbrev Cache := List (Str × List Str)

/-- Map lookup (`cache.contains_key` / `cache[key]` / `cache.get`). -/
def cacheGet : Cache → Str → Option (List Str)
  | [], _ => none
  | (k, v) :: rest, key => if k = key then some v else cacheGet rest key

/-- Rust `str::trim_end_matches` with a character pattern: removes *all*
trailing occurrences of `c`. -/
def trimEndMatches (s : Str) (c : Char) : Str :=
  (s.reverse.dropWhile (fun x => x == c)).reverse

/-- The join of one cached stem candidate `item` with one suffix rendering
`sfx` (suggestion.rs, lines 40–69).  The two `unwrap`s on the last character
of `item` and the first character of `sfx` are modelled by `none` when
either string is empty. -/
def joinItem (env : Env) (item sfx : Str) : Option Str :=
  match item.getLast? with
  | none => none
  | some item_rmc =>
    match sfx.head? with
    | none => none
    | some suffix_lmc =>
      if env.is_vowel item_rmc && env.is_kar suffix_lmc then
        some (item ++ glideYa :: sfx)
      else if item_rmc = khandatta then
        some (trimEndMatches item khandatta ++ taChar :: sfx)
      else if item_rmc = anushar then
        some (trimEndMatches item anushar ++ ngaChar :: sfx)
      else
        some (item ++ sfx)

/-- The inner `for item in &self.cache[key]` loop: join every cached
candidate with the suffix rendering, in cache order. -/
def mapJoin (env : Env) : List Str → Str → Option (List Str)
  | [], _ => some []
  | item :: rest, sfx =>
    match joinItem env item sfx with
    | none => none
    | some w => (mapJoin env rest sfx).map (w :: ·)

/-- One iteration of the split-point loop of `add_suffix_to_suggestions` at
byte offset `i`: slice the candidate suffix `middle[i..]`, look it up, slice
the stem key `middle[0..len-suffix_len]`, and join the cached candidates. -/
def processIdx (env : Env) (cache : Cache) (middle : Str) (i : Nat) : Option (List Str) :=
  match sliceFrom middle i with
  | none => none
  | some suffix_key =>
    match env.find_suffix suffix_key with
    | none => some []
    | some sfx =>
      match rustSlice middle 0 (byteLen middle - byteLen suffix_key) with
      | none => none
      | some key =>
        match cacheGet cache key with
        | none => some []
        | some items => mapJoin env items sfx

/-- The split-point loop `for i in 1..middle.len()`, iterating the given
byte offsets in order and concatenating each iteration's contributions. -/
def suffixLoop (env : Env) (cache : Cache) (middle : Str) : List Nat → Option (List Str)
  | [] => some []
  | i :: rest =>
    match processIdx env cache middle i with
    | none => none
    | some ws => (suffixLoop env cache middle rest).map (ws ++ ·)

/-- Embedding of `add_suffix_to_suggestions` (suggestion.rs, lines 31–84).
The guard and the loop bounds use the *byte* length of the core, exactly as
the Rust code does; `none` models a panic. -/
def add_suffix_to_suggestions (env : Env) (cache : Cache)
    (splitted : Str × Str × Str) : Option (List Str) :=
  let middle := splitted.2.1
  match (if 2 < byteLen middle
         then suffixLoop env cache middle (List.range' 1 (byteLen middle - 1))
         else some []) with
  | none => none
  | some list =>
    some (if list.isEmpty then (cacheGet cache middle).getD [] else list)

/-- Classic Levenshtein recurrence, driven by an explicit fuel so that the
recursion is structural (and hence evaluates inside the kernel); the fuel
only needs to dominate `s.length + t.length`, and each recursive call
shrinks that sum, so the `fuel = 0` catch-all is never reached from
`edit_distance` below. -/
def edit_distance_fuel : Nat → Str → Str → Nat
  | _, [], t => t.length
  | _, s, [] => s.length
  | 0, _, _ => 0
  | fuel + 1, a :: s, b :: t =>
    if a = b then edit_distance_fuel fuel s t
    else 1 + min (edit_distance_fuel fuel s (b :: t))
        (min (edit_distance_fuel fuel (a :: s) t) (edit_distance_fuel fuel s t))

/-- Modelled from the spec: the `edit_distance` crate consumed by `suggest`
is an external dependency; per the spec's ranking contract it computes the
classic Levenshtein edit distance over code points with unit-cost insert,
delete and substitute. -/
def edit_distance (s t : Str) : Nat := edit_distance_fuel (s.length + t.length) s t

/-- Insert `a` into a list, before the first element whose distance to `ref`
is not smaller.  Helper for the stable sort below. -/
def orderedInsertDist (ref : Str) (a : Str) : List Str → List Str
  | [] => [a]
  | b :: l =>
    if edit_distance ref a ≤ edit_distance ref b then a :: b :: l
    else b :: orderedInsertDist ref a l

/-- The ranking step of `suggest` (suggestion.rs, lines 108–119): Rust's
`sort_by` is a stable sort, and a stable sort's output (the unique
permutation that is ordered by the comparator and keeps tied elements in
input order) is reproduced here by stable insertion sort keyed on the edit
distance to `ref`. -/
def sortByDist (ref : Str) : List Str → List Str
  | [] => []
  | a :: l => orderedInsertDist ref a (sortByDist ref l)

/-- The cache-miss branch of `suggest` (suggestion.rs, lines 93–104):
returns the autocorrect-derived prefix of the result list together with the
updated cache. -/
def updateCache (env : Env) (cache : Cache) (middle : Str) : List Str × Cache :=
  if (cacheGet cache middle).isSome then ([], cache)
  else
    let dictionary := env.search_dictionary middle
    match env.get_corrected middle with
    | some corrected =>
      let word := env.convert corrected
      ([word], (middle, dictionary ++ [word]) :: cache)
    | none => ([], (middle, dictionary) :: cache)

/-- The orchestrator's mutable state.  The `PhoneticSuggestion` struct also
holds a `suggestions` field and the database/transliterator handles, but
`suggest` never reads or writes `self.suggestions` (it shadows it with a
local), and the handles are immutable collaborators, so the cache is the
whole mutable state. -/
structure State where
  cache : Cache
deriving DecidableEq

/-- Embedding of `suggest` (suggestion.rs, lines 87–138).  Returns the final
suggestion list together with the post-call state; `none` models a panic
inside `add_suffix_to_suggestions`. -/
def suggest (env : Env) (st : State) (term : Str) : Option (List Str × State) :=
  match split_string term with
  | none => none
  | some (pre, middle, post) =>
    let phonetic := env.convert middle
    let sc := updateCache env st.cache middle
    match add_suffix_to_suggestions env sc.2 (pre, middle, post) with
    | none => none
    | some sws =>
      let l1 := sc.1 ++ sortByDist phonetic sws
      let l2 := if phonetic ∈ l1 then l1 else l1 ++ [phonetic]
      let decorated := l2.map (fun it => pre ++ it ++ post)
      let final := match env.get_corrected term with
        | some emoticon => emoticon :: decorated
        | none => decorated
      some (final, ⟨sc.2⟩)

/-! ## C4: the joining rule -/

/-- A trivial instantiation of the external collaborators, used for
evaluating the embedding at concrete inputs. -/
def envTriv : Env :=
  { is_vowel := fun _ => false
    is_kar := fun _ => false
    find_suffix := fun _ => none
    search_dictionary := fun _ => []
    get_corrected := fun _ => none
    convert := fun s => s }

/-- Modelled from the spec: the joining rule exactly as claim C4 states it,
where in the Khandatta and Anushar cases "exactly that trailing character is
dropped" — i.e. only one character is removed from the end of `item`. -/
def claimedJoin (env : Env) (item sfx : Str) : Option Str :=
  match item.getLast? with
  | none => none
  | some r =>
    match sfx.head? with
    | none => none
    | some l =>
      if env.is_vowel r && env.is_kar l then
        some (item ++ glideYa :: sfx)
      else if r = khandatta then
        some (item.dropLast ++ taChar :: sfx)
      else if r = anushar then
        some (item.dropLast ++ ngaChar :: sfx)
      else
        some (item ++ sfx)

/-- Counterexample to C4 as stated: when the cached candidate ends in *two*
Khandatta characters, `trim_end_matches` removes both of them, not "exactly
that trailing character". -/
theorem C4_counterexample :
    joinItem envTriv [khandatta, khandatta] ['x'] = some [taChar, 'x'] ∧
    claimedJoin envTriv [khandatta, khandatta] ['x'] = some [khandatta, taChar, 'x'] ∧
    joinItem envTriv [khandatta, khandatta] ['x'] ≠
      claimedJoin envTriv [khandatta, khandatta] ['x'] := by
  decide

/-- Length of the maximal run of copies of `c` at the end of a string. -/
def trailRun (c : Char) : Str → Nat
  | [] => 0
  | x :: rest =>
    if x = c ∧ rest.all (fun y => y == c) then rest.length + 1 else trailRun c rest

/-- Modelled from the spec (C4 as amended): the joining rule with the
Khandatta/Anushar cases dropping the *maximal trailing run* of the sentinel
character (the semantics of `trim_end_matches`), stated independently of the
embedding via `trailRun`. -/
def amendedJoin (env : Env) (item sfx : Str) : Option Str :=
  match item.getLast? with
  | none => none
  | some r =>
    match sfx.head? with
    | none => none
    | some l =>
      if env.is_vowel r && env.is_kar l then
        some (item ++ glideYa :: sfx)
      else if r = khandatta then
        some (item.take (item.length - trailRun khandatta item) ++ taChar :: sfx)
      else if r = anushar then
        some (item.take (item.length - trailRun anushar item) ++ ngaChar :: sfx)
      else
        some (item ++ sfx)

theorem trailRun_le_length (c : Char) : ∀ s : Str, trailRun c s ≤ s.length := by
  intro s
  induction s with
  | nil => exact Nat.le_refl 0
  | cons x rest ih =>
    rw [trailRun]
    split
    · simp
    · exact Nat.le_succ_of_le ih

theorem trimEndMatches_concat (l : Str) (a c : Char) :
    trimEndMatches (l ++ [a]) c = if a = c then trimEndMatches l c else l ++ [a] := by
  by_cases h : a = c
  · rw [if_pos h]
    simp [trimEndMatches, List.dropWhile, h]
  · rw [if_neg h]
    simp [trimEndMatches, List.dropWhile, h]

theorem trailRun_concat (c : Char) (a : Char) :
    ∀ l : Str, trailRun c (l ++ [a]) = if a = c then trailRun c l + 1 else 0 := by
  intro l
  induction l with
  | nil =>
    by_cases h : a = c
    · simp [trailRun, h]
    · simp [trailRun, h]
  | cons x l ih =>
    by_cases h : a = c
    · rw [if_pos h]
      rw [List.cons_append, trailRun, trailRun]
      by_cases hx : x = c ∧ l.all (fun y => y == c)
      · have hall : (l ++ [a]).all (fun y => y == c) = true := by
          rw [List.all_append]
          simp [hx.2, h]
        rw [if_pos ⟨hx.1, hall⟩, if_pos hx]
        simp
      · have : ¬(x = c ∧ (l ++ [a]).all (fun y => y == c) = true) := by
          intro hcon
          rcases hcon with ⟨hxc, hall⟩
          rw [List.all_append, Bool.and_eq_true] at hall
          exact hx ⟨hxc, hall.1⟩
        rw [if_neg this, if_neg hx, ih, if_pos h]
    · rw [if_neg h]
      rw [List.cons_append, trailRun]
      have : ¬(x = c ∧ (l ++ [a]).all (fun y => y == c) = true) := by
        intro hcon
        have h2 := hcon.2
        rw [List.all_append, Bool.and_eq_true] at h2
        have h3 := h2.2
        simp at h3
        exact h h3
      rw [if_neg this, ih, if_neg h]

/-- `trim_end_matches` removes exactly the maximal trailing run. -/
theorem trimEndMatches_eq_take (c : Char) :
    ∀ s : Str, trimEndMatches s c = s.take (s.length - trailRun c s) := by
  intro s
  induction s using List.reverseRecOn with
  | nil => rfl
  | append_singleton l a ih =>
    rw [trimEndMatches_concat, trailRun_concat]
    by_cases h : a = c
    · rw [if_pos h, if_pos h, ih]
      have hle : trailRun c l ≤ l.length := trailRun_le_length c l
      have harith : l.length + 1 - (trailRun c l + 1) = l.length - trailRun c l := by omega
      rw [List.length_append, List.length_singleton, harith,
        List.take_append_of_le_length (by omega)]
    · rw [if_neg h, if_neg h]
      rw [List.length_append, List.length_singleton, Nat.sub_zero]
      rw [List.take_of_length_le (by simp)]

/-- C4 (amended): the joining rule holds with the Khandatta and Anushar
cases dropping the *maximal trailing run* of the sentinel character (that is
what `trim_end_matches` does), rather than exactly one trailing character;
the other two cases are as claimed: glide insertion when an independent
vowel meets a dependent vowel sign, plain concatenation otherwise. -/
theorem C4_joining_rule (env : Env) (item sfx : Str) :
    joinItem env item sfx = amendedJoin env item sfx := by
  cases hr : item.getLast? with
  | none => simp [joinItem, amendedJoin, hr]
  | some r =>
    cases hl : sfx.head? with
    | none => simp [joinItem, amendedJoin, hr, hl]
    | some l =>
      simp only [joinItem, amendedJoin, hr, hl]
      rw [trimEndMatches_eq_take, trimEndMatches_eq_take]

/-! ## C5: guard and fallback of the suffix composer -/

/-- Counterexample to C5 as stated: the guard compares the *byte* length of
the core with 2, not its character length.  The single-character core `"আ"`
(U+0986, a three-byte character) has length 1 ≤ 2, yet the composer runs the
split loop and panics on a non-boundary byte offset instead of returning the
cache entry for the full core. -/
theorem C5_counterexample :
    ([Char.ofNat 0x0986] : Str).length ≤ 2 ∧
    add_suffix_to_suggestions envTriv [] ([], [Char.ofNat 0x0986], []) = none ∧
    add_suffix_to_suggestions envTriv [] ([], [Char.ofNat 0x0986], []) ≠
      some ((cacheGet [] [Char.ofNat 0x0986]).getD []) := by
  decide

/-- C5 (amended): with length measured in UTF-8 bytes, the guard and the
fallback behave as claimed — a core of byte length ≤ 2 triggers no split and
yields exactly the cache's entry for the full core (empty if absent), and a
longer core yields the same fallback whenever the split loop completes with
no contribution. -/
theorem C5_guard_and_fallback (env : Env) (cache : Cache) (pre post middle : Str) :
    (byteLen middle ≤ 2 →
      add_suffix_to_suggestions env cache (pre, middle, post) =
        some ((cacheGet cache middle).getD [])) ∧
    (2 < byteLen middle →
      suffixLoop env cache middle (List.range' 1 (byteLen middle - 1)) = some [] →
      add_suffix_to_suggestions env cache (pre, middle, post) =
        some ((cacheGet cache middle).getD [])) := by
  constructor
  · intro h
    rw [add_suffix_to_suggestions]
    simp only
    rw [if_neg (by omega)]
    rfl
  · intro h hloop
    rw [add_suffix_to_suggestions]
    simp only
    rw [if_pos h, hloop]
    rfl

/-- Witness for C5 at a concrete two-byte core with a cached entry. -/
theorem C5_witness :
    add_suffix_to_suggestions envTriv [(['a', 'b'], [['X']])] ([], ['a', 'b'], []) =
      some ((cacheGet [(['a', 'b'], [['X']])] ['a', 'b']).getD []) :=
  (C5_guard_and_fallback envTriv [(['a', 'b'], [['X']])] [] [] ['a', 'b']).1 (by decide)

/-! ## C10: the non-emptiness precondition of the joins -/

theorem joinItem_none_iff (env : Env) (item sfx : Str) :
    joinItem env item sfx = none ↔ (item = [] ∨ sfx = []) := by
  cases hr : item.getLast? with
  | none =>
    have : item = [] := List.getLast?_eq_none_iff.mp hr
    simp [joinItem, hr, this]
  | some r =>
    have hne : item ≠ [] := by
      intro h
      rw [h] at hr
      cases hr
    cases hl : sfx.head? with
    | none =>
      have : sfx = [] := List.head?_eq_none_iff.mp hl
      simp [joinItem, hr, hl, this]
    | some l =>
      have hne2 : sfx ≠ [] := by
        intro h
        rw [h] at hl
        cases hl
      simp only [joinItem, hr, hl]
      constructor
      · intro h
        split at h <;> first | cases h | (split at h <;> first | cases h | (split at h <;> cases h))
      · intro h
        rcases h with h | h
        · exact absurd h hne
        · exact absurd h hne2

theorem mapJoin_some_forall (env : Env) :
    ∀ (items : List Str) (sfx : Str) (ws : List Str),
      mapJoin env items sfx = some ws →
      ∀ item ∈ items, ∃ w, joinItem env item sfx = some w := by
  intro items
  induction items with
  | nil => intro sfx ws _ item hmem; cases hmem
  | cons it rest ih =>
    intro sfx ws h item hmem
    rw [mapJoin] at h
    cases hj : joinItem env it sfx with
    | none => rw [hj] at h; cases h
    | some w =>
      rw [hj] at h
      rcases List.mem_cons.mp hmem with rfl | hmem2
      · exact ⟨w, hj⟩
      · cases hrest : mapJoin env rest sfx with
        | none => rw [hrest] at h; cases h
        | some ws' => exact ih sfx ws' hrest item hmem2

theorem suffixLoop_some_forall (env : Env) (cache : Cache) (middle : Str) :
    ∀ (idxs : List Nat) (L : List Str),
      suffixLoop env cache middle idxs = some L →
      ∀ i ∈ idxs, ∃ w, processIdx env cache middle i = some w := by
  intro idxs
  induction idxs with
  | nil => intro L _ i hi; cases hi
  | cons j rest ih =>
    intro L h i hi
    rw [suffixLoop] at h
    cases hp : processIdx env cache middle j with
    | none => rw [hp] at h; cases h
    | some ws =>
      rw [hp] at h
      rcases List.mem_cons.mp hi with rfl | hi2
      · exact ⟨ws, hp⟩
      · cases hrest : suffixLoop env cache middle rest with
        | none => rw [hrest] at h; cases h
        | some L' => exact ih L' hrest i hi2

/-- C10: implicit precondition of the suffix composer.  First part: whenever
`add_suffix_to_suggestions` completes without panic, every cached candidate
reached through a matched stem, and the matched suffix rendering joined with
it, are non-empty.  Second part: the `unwrap`s of the candidate's last
character and of the rendering's first character are exactly the failure
points — the join fails precisely when one of the two strings is empty. -/
theorem C10_nonempty_precondition :
    (∀ (env : Env) (cache : Cache) (pre post middle : Str) (res : List Str),
      add_suffix_to_suggestions env cache (pre, middle, post) = some res →
      2 < byteLen middle →
      ∀ i ∈ List.range' 1 (byteLen middle - 1),
        ∀ suffix_key sfx key items,
          sliceFrom middle i = some suffix_key →
          env.find_suffix suffix_key = some sfx →
          rustSlice middle 0 (byteLen middle - byteLen suffix_key) = some key →
          cacheGet cache key = some items →
          ∀ item ∈ items, item ≠ [] ∧ sfx ≠ []) ∧
    (∀ (env : Env) (item sfx : Str),
      joinItem env item sfx = none ↔ (item = [] ∨ sfx = [])) := by
  constructor
  · intro env cache pre post middle res hres h2 i hi suffix_key sfx key items hslice hfind
      hkey hcache item hitem
    rw [add_suffix_to_suggestions] at hres
    simp only at hres
    rw [if_pos h2] at hres
    cases hloop : suffixLoop env cache middle (List.range' 1 (byteLen middle - 1)) with
    | none => rw [hloop] at hres; cases hres
    | some L =>
      rcases suffixLoop_some_forall env cache middle _ L hloop i hi with ⟨w, hw⟩
      simp only [processIdx, hslice, hfind, hkey, hcache] at hw
      rcases mapJoin_some_forall env items sfx w hw item hitem with ⟨w', hw'⟩
      have : ¬(item = [] ∨ sfx = []) := by
        rw [← joinItem_none_iff env item sfx]
        rw [hw']
        intro h
        cases h
      exact ⟨fun h => this (Or.inl h), fun h => this (Or.inr h)⟩
  · exact joinItem_none_iff

/-- Concrete environment for the C10 witness: one recognized suffix and one
cached stem. -/
def env10 : Env :=
  { envTriv with find_suffix := fun s => if s = ['b', 'c'] then some ['S'] else none }

/-- Witness for C10: at a concrete run that completes, the reached cached
candidate and rendering are non-empty; and the join of an empty candidate
fails. -/
theorem C10_witness :
    ((['X'] : Str) ≠ [] ∧ (['S'] : Str) ≠ []) ∧
    (joinItem envTriv [] ['S'] = none ↔ (([] : Str) = [] ∨ (['S'] : Str) = [])) :=
  ⟨C10_nonempty_precondition.1 env10 [(['a'], [['X']])] [] [] ['a', 'b', 'c'] [['X', 'S']]
      (by decide) (by decide) 1 (by decide) ['b', 'c'] ['S'] ['a'] [['X']]
      (by decide) (by decide) (by decide) (by decide) ['X'] (by decide),
    C10_nonempty_precondition.2 envTriv [] ['S']⟩

/-! ## C3: split-point loop order and contributions -/

/-- Concrete environment for C3 with two recognized suffixes. -/
def envC3 : Env :=
  { envTriv with find_suffix := fun s =>
      if s = ['b', 'c'] then some ['X'] else if s = ['c'] then some ['Y'] else none }

/-- Concrete cache for C3: both possible stems of `"abc"` are cached. -/
def cacheC3 : Cache := [(['a'], [['S']]), (['a', 'b'], [['T']])]

/-- Counterexample to C3 as stated: with both split points of the core
`"abc"` matching (`"bc"` and `"c"` are both recognized suffixes, and both
stems `"a"` and `"ab"` are cached), the result lists the `i = 1`
contribution (candidate suffix `"bc"`, the *longest* proper suffix) before
the `i = 2` contribution (candidate suffix `"c"`, the shortest): the
ascending-`i` loop tries suffixes longest-first, not shortest-first as
claimed. -/
theorem C3_counterexample :
    add_suffix_to_suggestions envC3 cacheC3 ([], ['a', 'b', 'c'], []) =
      some [['S', 'X'], ['T', 'Y']] ∧
    ([['S', 'X'], ['T', 'Y']] : List Str) ≠ [['T', 'Y'], ['S', 'X']] := by
  decide

/-- Modelled from the spec (C3 as amended): the contribution of the split
point at character offset `i` — if `core[i..]` is a recognized suffix and
the stem `core[..i]` is cached, the joins of all cached candidates with the
rendering; otherwise nothing. -/
def splitContrib (env : Env) (cache : Cache) (middle : Str) (i : Nat) : Option (List Str) :=
  match env.find_suffix (middle.drop i) with
  | none => some []
  | some sfx =>
    match cacheGet cache (middle.take i) with
    | none => some []
    | some items => mapJoin env items sfx

/-- Option-valued map over loop indices, collecting each iteration's
contribution (or the first panic). -/
def mapOpt (f : Nat → Option (List Str)) : List Nat → Option (List (List Str))
  | [] => some []
  | i :: rest =>
    match f i with
    | none => none
    | some w => (mapOpt f rest).map (w :: ·)

theorem mapOpt_congr (f g : Nat → Option (List Str)) :
    ∀ (l : List Nat), (∀ i ∈ l, f i = g i) → mapOpt f l = mapOpt g l := by
  intro l
  induction l with
  | nil => intro _; rfl
  | cons i rest ih =>
    intro h
    rw [mapOpt, mapOpt, h i (List.mem_cons_self i rest),
      ih (fun j hj => h j (List.mem_cons_of_mem i hj))]

theorem suffixLoop_eq_mapOpt (env : Env) (cache : Cache) (middle : Str) :
    ∀ (idxs : List Nat),
      suffixLoop env cache middle idxs =
        (mapOpt (processIdx env cache middle) idxs).map List.flatten := by
  intro idxs
  induction idxs with
  | nil => rfl
  | cons i rest ih =>
    rw [suffixLoop, mapOpt]
    cases hp : processIdx env cache middle i with
    | none => rfl
    | some ws =>
      rw [ih]
      cases mapOpt (processIdx env cache middle) rest with
      | none => rfl
      | some parts => rfl

/-- On an all-ASCII core, one loop iteration at a valid character offset is
exactly the spec-level split contribution. -/
theorem processIdx_ascii (env : Env) (cache : Cache) (middle : Str) (i : Nat)
    (hascii : ∀ c ∈ middle, utf8Len c = 1) (h1 : 1 ≤ i) (h2 : i < middle.length) :
    processIdx env cache middle i = splitContrib env cache middle i := by
  have htake : byteLen (middle.take i) = i := by
    rw [byteLen_eq_length _ (fun c hc => hascii c (List.take_subset i middle hc))]
    rw [List.length_take]
    omega
  have hdrop : byteLen (middle.drop i) = middle.length - i := by
    rw [byteLen_eq_length _ (fun c hc => hascii c (List.drop_subset i middle hc))]
    rw [List.length_drop]
  have hb : byteLen middle = middle.length := byteLen_eq_length middle hascii
  have hsplit : middle = middle.take i ++ middle.drop i := (List.take_append_drop i middle).symm
  have hslice : sliceFrom middle i = some (middle.drop i) := by
    have h := sliceFrom_append (middle.take i) (middle.drop i)
    rw [htake] at h
    rw [← hsplit] at h
    exact h
  rw [processIdx, splitContrib, hslice]
  simp only
  cases env.find_suffix (middle.drop i) with
  | none => rfl
  | some sfx =>
    simp only
    have hkey : rustSlice middle 0 (byteLen middle - byteLen (middle.drop i)) =
        some (middle.take i) := by
      rw [hdrop, hb]
      have : middle.length - (middle.length - i) = i := by omega
      rw [this, rustSlice, if_pos (Nat.zero_le i)]
      have hs0 : sliceFrom middle 0 = some middle := by cases middle <;> rfl
      rw [hs0]
      show sliceTo middle (i - 0) = some (middle.take i)
      rw [Nat.sub_zero]
      have h := sliceTo_append (middle.take i) (middle.drop i)
      rw [htake] at h
      rw [← hsplit] at h
      exact h
    rw [hkey]

/-- C3 (amended): the split-point loop runs `i` ascending over the byte
offsets `1 .. bytelen(core)−1` with `candidate_suffix = core[i..]`; on an
all-ASCII core these are the character offsets, every split point whose
suffix is recognized and whose stem is cached contributes its joined
candidates, all contributions are kept in ascending-`i` order, and the
candidate suffixes are tried in *strictly decreasing* length order
(longest-suffix-first, equivalently shortest-stem-first) — not
shortest-suffix-first. -/
theorem C3_loop_order (env : Env) (cache : Cache) (pre post middle : Str)
    (parts : List (List Str))
    (hascii : ∀ c ∈ middle, utf8Len c = 1)
    (hlen : 2 < middle.length)
    (hparts : mapOpt (splitContrib env cache middle)
      (List.range' 1 (middle.length - 1)) = some parts) :
    suffixLoop env cache middle (List.range' 1 (byteLen middle - 1)) =
      some parts.flatten ∧
    (parts.flatten ≠ [] →
      add_suffix_to_suggestions env cache (pre, middle, post) = some parts.flatten) ∧
    List.Pairwise (fun i j => (middle.drop j).length < (middle.drop i).length)
      (List.range' 1 (middle.length - 1)) := by
  have hb : byteLen middle = middle.length := byteLen_eq_length middle hascii
  have hloop : suffixLoop env cache middle (List.range' 1 (byteLen middle - 1)) =
      some parts.flatten := by
    rw [suffixLoop_eq_mapOpt, hb]
    rw [mapOpt_congr (processIdx env cache middle) (splitContrib env cache middle) _
      (fun i hi => by
        rcases List.mem_range'_1.mp hi with ⟨hi1, hi2⟩
        exact processIdx_ascii env cache middle i hascii hi1 (by omega))]
    rw [hparts]
    rfl
  refine ⟨hloop, ?_, ?_⟩
  · intro hne
    rw [add_suffix_to_suggestions]
    simp only
    rw [if_pos (by omega), hloop]
    have : parts.flatten.isEmpty = false := by
      cases hfe : parts.flatten.isEmpty
      · rfl
      · exact absurd (List.isEmpty_iff.mp hfe) hne
    simp [this]
  · exact (List.pairwise_lt_range' 1 (middle.length - 1)).imp_of_mem
      (fun {a b} ha hb' hab => by
        rcases List.mem_range'_1.mp ha with ⟨ha1, ha2⟩
        rcases List.mem_range'_1.mp hb' with ⟨hb1, hb2⟩
        rw [List.length_drop, List.length_drop]
        omega)

/-- Witness for C3 at the concrete `"abc"` scenario of the counterexample. -/
theorem C3_witness :
    suffixLoop envC3 cacheC3 ['a', 'b', 'c'] (List.range' 1 (byteLen ['a', 'b', 'c'] - 1)) =
      some ([[['S', 'X']], [['T', 'Y']]] : List (List Str)).flatten ∧
    (([[['S', 'X']], [['T', 'Y']]] : List (List Str)).flatten ≠ [] →
      add_suffix_to_suggestions envC3 cacheC3 ([], ['a', 'b', 'c'], []) =
        some ([[['S', 'X']], [['T', 'Y']]] : List (List Str)).flatten) ∧
    List.Pairwise (fun i j => ((['a', 'b', 'c'] : Str).drop j).length <
      ((['a', 'b', 'c'] : Str).drop i).length)
      (List.range' 1 ((['a', 'b', 'c'] : Str).length - 1)) :=
  C3_loop_order envC3 cacheC3 [] [] ['a', 'b', 'c'] [[['S', 'X']], [['T', 'Y']]]
    (by decide) (by decide) (by decide)

/-! ## C6: ranking -/

theorem orderedInsertDist_perm (ref a : Str) :
    ∀ l : List Str, (orderedInsertDist ref a l).Perm (a :: l) := by
  intro l
  induction l with
  | nil => exact List.Perm.refl [a]
  | cons b l ih =>
    rw [orderedInsertDist]
    by_cases h : edit_distance ref a ≤ edit_distance ref b
    · rw [if_pos h]
    · rw [if_neg h]
      exact (ih.cons b).trans (List.Perm.swap a b l)

theorem pairwise_orderedInsertDist (ref a : Str) :
    ∀ l : List Str,
      List.Pairwise (fun x y => edit_distance ref x ≤ edit_distance ref y) l →
      List.Pairwise (fun x y => edit_distance ref x ≤ edit_distance ref y)
        (orderedInsertDist ref a l) := by
  intro l
  induction l with
  | nil => intro _; simp [orderedInsertDist]
  | cons b l ih =>
    intro h
    rcases List.pairwise_cons.mp h with ⟨h1, h2⟩
    rw [orderedInsertDist]
    by_cases hab : edit_distance ref a ≤ edit_distance ref b
    · rw [if_pos hab]
      refine List.pairwise_cons.mpr ⟨?_, h⟩
      intro x hx
      rcases List.mem_cons.mp hx with rfl | hx2
      · exact hab
      · exact Nat.le_trans hab (h1 x hx2)
    · rw [if_neg hab]
      refine List.pairwise_cons.mpr ⟨?_, ih h2⟩
      intro x hx
      have hx2 : x ∈ a :: l := (orderedInsertDist_perm ref a l).mem_iff.mp hx
      rcases List.mem_cons.mp hx2 with rfl | h3
      · omega
      · exact h1 x h3

theorem filter_orderedInsertDist (ref a : Str) (d : Nat) :
    ∀ l : List Str,
      (orderedInsertDist ref a l).filter (fun x => edit_distance ref x == d) =
        if edit_distance ref a = d
        then a :: l.filter (fun x => edit_distance ref x == d)
        else l.filter (fun x => edit_distance ref x == d) := by
  intro l
  induction l with
  | nil =>
    by_cases hd : edit_distance ref a = d
    · have hb : (edit_distance ref a == d) = true := by simp [hd]
      simp [orderedInsertDist, List.filter_cons, hb, hd]
    · have hb : (edit_distance ref a == d) = false := by simp [hd]
      simp [orderedInsertDist, List.filter_cons, hb, hd]
  | cons b l ih =>
    rw [orderedInsertDist]
    by_cases hab : edit_distance ref a ≤ edit_distance ref b
    · rw [if_pos hab]
      by_cases hd : edit_distance ref a = d
      · simp [List.filter_cons, hd]
      · simp [List.filter_cons, hd]
    · rw [if_neg hab]
      by_cases hd : edit_distance ref a = d
      · have hbd : ¬(edit_distance ref b = d) := by omega
        rw [if_pos hd]
        rw [List.filter_cons, List.filter_cons]
        simp only [beq_iff_eq, hbd]
        simp only [ite_false, if_neg hbd]
        rw [ih, if_pos hd]
      · rw [if_neg hd]
        rw [List.filter_cons, List.filter_cons]
        rw [ih, if_neg hd]

/-- C6: the ranking step of `suggest` sorts the suffix-composed candidate
list into non-decreasing Levenshtein edit distance to the reference string,
it is a permutation of its input, and candidates of equal distance keep
their input relative order (the deterministic tie order of Rust's stable
`sort_by`), expressed by the filter at each distance being unchanged. -/
theorem C6_ranking (ref : Str) (l : List Str) :
    List.Pairwise (fun x y => edit_distance ref x ≤ edit_distance ref y)
      (sortByDist ref l) ∧
    (sortByDist ref l).Perm l ∧
    ∀ d : Nat, (sortByDist ref l).filter (fun x => edit_distance ref x == d) =
      l.filter (fun x => edit_distance ref x == d) := by
  refine ⟨?_, ?_, ?_⟩
  · induction l with
    | nil => simp [sortByDist]
    | cons a l ih =>
      rw [sortByDist]
      exact pairwise_orderedInsertDist ref a _ ih
  · induction l with
    | nil => exact List.Perm.refl []
    | cons a l ih =>
      rw [sortByDist]
      exact (orderedInsertDist_perm ref a _).trans (ih.cons a)
  · intro d
    induction l with
    | nil => rfl
    | cons a l ih =>
      rw [sortByDist, filter_orderedInsertDist, List.filter_cons]
      by_cases hd : edit_distance ref a = d
      · rw [if_pos hd, ih]
        simp [hd]
      · rw [if_neg hd, ih]
        simp [hd]

/-! ## The orchestrator: C7, C8, C9 -/

/-- The pre-decoration list of `suggest` after the plain-transliteration
fallback check: append the plain transliteration of `middle` to `l1` unless
it is already present. -/
def mkL2 (env : Env) (middle : Str) (l1 : List Str) : List Str :=
  if env.convert middle ∈ l1 then l1 else l1 ++ [env.convert middle]

/-- Characterization of a successful `suggest` call in terms of its stages. -/
theorem suggest_spec (env : Env) (st : State) (term : Str) (res : List Str) (st' : State)
    (h : suggest env st term = some (res, st')) :
    ∃ pre middle post sws,
      split_string term = some (pre, middle, post) ∧
      add_suffix_to_suggestions env (updateCache env st.cache middle).2
        (pre, middle, post) = some sws ∧
      st' = ⟨(updateCache env st.cache middle).2⟩ ∧
      ((env.get_corrected term = none ∧
        res = (mkL2 env middle ((updateCache env st.cache middle).1 ++
          sortByDist (env.convert middle) sws)).map (fun it => pre ++ it ++ post)) ∨
       (∃ e, env.get_corrected term = some e ∧
        res = e :: (mkL2 env middle ((updateCache env st.cache middle).1 ++
          sortByDist (env.convert middle) sws)).map (fun it => pre ++ it ++ post))) := by
  rw [suggest] at h
  cases hsplit : split_string term with
  | none => rw [hsplit] at h; cases h
  | some trip =>
    obtain ⟨pre, middle, post⟩ := trip
    rw [hsplit] at h
    simp only at h
    cases hadd : add_suffix_to_suggestions env (updateCache env st.cache middle).2
        (pre, middle, post) with
    | none => rw [hadd] at h; cases h
    | some sws =>
      rw [hadd] at h
      simp only at h
      cases hcor : env.get_corrected term with
      | none =>
        rw [hcor] at h
        simp only at h
        have hp := Option.some.inj h
        have h1 : res = List.map (fun it => pre ++ it ++ post)
            (mkL2 env middle ((updateCache env st.cache middle).1 ++
              sortByDist (env.convert middle) sws)) :=
          (congrArg Prod.fst hp).symm
        have h3 : st' = ⟨(updateCache env st.cache middle).2⟩ :=
          (congrArg Prod.snd hp).symm
        exact ⟨pre, middle, post, sws, rfl, hadd, h3, Or.inl ⟨rfl, h1⟩⟩
      | some e =>
        rw [hcor] at h
        simp only at h
        have hp := Option.some.inj h
        have h1 : res = e :: List.map (fun it => pre ++ it ++ post)
            (mkL2 env middle ((updateCache env st.cache middle).1 ++
              sortByDist (env.convert middle) sws)) :=
          (congrArg Prod.fst hp).symm
        have h3 : st' = ⟨(updateCache env st.cache middle).2⟩ :=
          (congrArg Prod.snd hp).symm
        exact ⟨pre, middle, post, sws, rfl, hadd, h3, Or.inr ⟨e, rfl, h1⟩⟩

/-- C8: every element of the final list returned by `suggest` is
`pre ++ X ++ post` for a pre-decoration candidate `X` — `l2` below is pinned
to the pre-decoration candidate list that `suggest` actually builds: the
autocorrect-derived head from the cache-miss branch, followed by the ranked
suffix-composed candidates, with the plain transliteration appended when
absent — except the whole-token autocorrect override, which is looked up
with the original undecorated `term` (not the core) and inserted undecorated
at position 0 exactly when the autocorrect table has a match for `term`. -/
theorem C8_decoration_override (env : Env) (st : State) (term : Str)
    (res : List Str) (st' : State) (h : suggest env st term = some (res, st')) :
    ∃ pre middle post, ∃ l2 : List Str,
      split_string term = some (pre, middle, post) ∧
      (∃ sws, add_suffix_to_suggestions env (updateCache env st.cache middle).2
          (pre, middle, post) = some sws ∧
        l2 = mkL2 env middle ((updateCache env st.cache middle).1 ++
          sortByDist (env.convert middle) sws)) ∧
      ((env.get_corrected term = none ∧
        res = l2.map (fun x => pre ++ x ++ post)) ∨
       (∃ e, env.get_corrected term = some e ∧
        res = e :: l2.map (fun x => pre ++ x ++ post))) := by
  rcases suggest_spec env st term res st' h with
    ⟨pre, middle, post, sws, hsplit, hadd, hst, hres⟩
  exact ⟨pre, middle, post,
    mkL2 env middle ((updateCache env st.cache middle).1 ++
      sortByDist (env.convert middle) sws), hsplit, ⟨sws, hadd, rfl⟩, hres⟩

/-- Witness for C8 at a concrete call. -/
theorem C8_witness :
    ∃ pre middle post, ∃ l2 : List Str,
      split_string ['a'] = some (pre, middle, post) ∧
      (∃ sws, add_suffix_to_suggestions envTriv
          (updateCache envTriv (State.mk []).cache middle).2
          (pre, middle, post) = some sws ∧
        l2 = mkL2 envTriv middle ((updateCache envTriv (State.mk []).cache middle).1 ++
          sortByDist (envTriv.convert middle) sws)) ∧
      ((envTriv.get_corrected ['a'] = none ∧
        ([['a']] : List Str) = l2.map (fun x => pre ++ x ++ post)) ∨
       (∃ e, envTriv.get_corrected ['a'] = some e ∧
        ([['a']] : List Str) = e :: l2.map (fun x => pre ++ x ++ post))) :=
  C8_decoration_override envTriv ⟨[]⟩ ['a'] [['a']] ⟨[(['a'], [])]⟩ (by decide)

/-- C9: a successful `suggest` call grows the cache by at most one entry —
under the key `middle` (the core of the segmented term) and only when that
key was absent — never removes or modifies an existing entry, and the
post-call state is exactly the (possibly extended) cache. -/
theorem C9_cache_frame (env : Env) (st : State) (term : Str)
    (res : List Str) (st' : State) (h : suggest env st term = some (res, st')) :
    ∃ pre middle post,
      split_string term = some (pre, middle, post) ∧
      (((cacheGet st.cache middle).isSome ∧ st'.cache = st.cache) ∨
       (cacheGet st.cache middle = none ∧
        ∃ v, st'.cache = (middle, v) :: st.cache ∧
          cacheGet st'.cache middle = some v ∧
          ∀ k, k ≠ middle → cacheGet st'.cache k = cacheGet st.cache k)) := by
  rcases suggest_spec env st term res st' h with
    ⟨pre, middle, post, sws, hsplit, hadd, hst, hres⟩
  refine ⟨pre, middle, post, hsplit, ?_⟩
  by_cases hc : (cacheGet st.cache middle).isSome
  · left
    refine ⟨hc, ?_⟩
    rw [hst]
    rw [updateCache, if_pos hc]
  · right
    have hnone : cacheGet st.cache middle = none := by
      cases hcg : cacheGet st.cache middle
      · rfl
      · rw [hcg] at hc
        exact absurd rfl hc
    refine ⟨hnone, ?_⟩
    rw [hst]
    rw [updateCache, if_neg hc]
    cases hcor : env.get_corrected middle with
    | none =>
      refine ⟨env.search_dictionary middle, rfl, ?_, ?_⟩
      · rw [cacheGet, if_pos rfl]
      · intro k hk
        rw [cacheGet, if_neg (fun he => hk he.symm)]
    | some corrected =>
      refine ⟨env.search_dictionary middle ++ [env.convert corrected], rfl, ?_, ?_⟩
      · rw [cacheGet, if_pos rfl]
      · intro k hk
        rw [cacheGet, if_neg (fun he => hk he.symm)]

/-- Witness for C9 at a concrete cache-miss call. -/
theorem C9_witness :
    ∃ pre middle post,
      split_string ['a'] = some (pre, middle, post) ∧
      (((cacheGet [] middle).isSome ∧ (⟨[(['a'], [])]⟩ : State).cache = []) ∨
       (cacheGet [] middle = none ∧
        ∃ v, (⟨[(['a'], [])]⟩ : State).cache = (middle, v) :: [] ∧
          cacheGet (⟨[(['a'], [])]⟩ : State).cache middle = some v ∧
          ∀ k, k ≠ middle →
            cacheGet (⟨[(['a'], [])]⟩ : State).cache k = cacheGet [] k)) :=
  C9_cache_frame envTriv ⟨[]⟩ ['a'] [['a']] ⟨[(['a'], [])]⟩ (by decide)

/-- Environment for the C7 counterexample: the dictionary returns the same
rendering twice, and that rendering is also the plain transliteration. -/
def envDup : Env :=
  { envTriv with
    convert := fun _ => ['p']
    search_dictionary := fun _ => [['p'], ['p']] }

/-- Counterexample to C7 as stated: the plain transliteration can appear
*twice* in the final suggestion list.  When the dictionary candidates
already contain the plain transliteration more than once, the membership
check suppresses the final append but does not deduplicate, so "appears at
most once" fails. -/
theorem C7_counterexample :
    envDup.convert ['a'] = ['p'] ∧
    suggest envDup ⟨[]⟩ ['a'] = some ([['p'], ['p']], ⟨[(['a'], [['p'], ['p']])]⟩) ∧
    List.count (['p'] : Str) [['p'], ['p']] = 2 := by
  decide

/-- C7 (amended): the plain transliteration of the core always appears in
the pre-override suggestion list built by `suggest`; the final fallback
appends it only when it is absent from the dictionary/autocorrect/suffix
candidates, in which case it appears exactly once; when those candidates
already contain it (possibly several times) nothing is appended, so
duplicates already produced upstream are kept. -/
theorem C7_plain_fallback (env : Env) (st : State) (term : Str)
    (res : List Str) (st' : State) (h : suggest env st term = some (res, st')) :
    ∃ pre middle post, ∃ base : List Str,
      split_string term = some (pre, middle, post) ∧
      (∃ sws, add_suffix_to_suggestions env (updateCache env st.cache middle).2
          (pre, middle, post) = some sws ∧
        base = (updateCache env st.cache middle).1 ++
          sortByDist (env.convert middle) sws) ∧
      env.convert middle ∈ mkL2 env middle base ∧
      (env.convert middle ∉ base →
        (mkL2 env middle base).count (env.convert middle) = 1) ∧
      (env.convert middle ∈ base → mkL2 env middle base = base) ∧
      (res = (mkL2 env middle base).map (fun x => pre ++ x ++ post) ∨
       ∃ e, res = e :: (mkL2 env middle base).map (fun x => pre ++ x ++ post)) := by
  rcases suggest_spec env st term res st' h with
    ⟨pre, middle, post, sws, hsplit, hadd, hst, hres⟩
  refine ⟨pre, middle, post,
    (updateCache env st.cache middle).1 ++ sortByDist (env.convert middle) sws,
    hsplit, ⟨sws, hadd, rfl⟩, ?_, ?_, ?_, ?_⟩
  · by_cases hm : env.convert middle ∈
      (updateCache env st.cache middle).1 ++ sortByDist (env.convert middle) sws
    · rw [mkL2, if_pos hm]
      exact hm
    · rw [mkL2, if_neg hm]
      exact List.mem_append_right _ (List.mem_singleton.mpr rfl)
  · intro hm
    rw [mkL2, if_neg hm]
    rw [List.count_append]
    rw [List.count_eq_zero_of_not_mem hm]
    simp
  · intro hm
    rw [mkL2, if_pos hm]
  · rcases hres with ⟨_, hr⟩ | ⟨e, _, hr⟩
    · exact Or.inl hr
    · exact Or.inr ⟨e, hr⟩

/-- Witness for C7 at a concrete call where the plain transliteration is
not among the candidates and is appended exactly once. -/
theorem C7_witness :
    ∃ pre middle post, ∃ base : List Str,
      split_string ['a'] = some (pre, middle, post) ∧
      (∃ sws, add_suffix_to_suggestions envTriv (updateCache envTriv [] middle).2
          (pre, middle, post) = some sws ∧
        base = (updateCache envTriv [] middle).1 ++
          sortByDist (envTriv.convert middle) sws) ∧
      envTriv.convert middle ∈ mkL2 envTriv middle base ∧
      (envTriv.convert middle ∉ base →
        (mkL2 envTriv middle base).count (envTriv.convert middle) = 1) ∧
      (envTriv.convert middle ∈ base → mkL2 envTriv middle base = base) ∧
      (([['a']] : List Str) = (mkL2 envTriv middle base).map (fun x => pre ++ x ++ post) ∨
       ∃ e, ([['a']] : List Str) =
         e :: (mkL2 envTriv middle base).map (fun x => pre ++ x ++ post)) :=
  C7_plain_fallback envTriv ⟨[]⟩ ['a'] [['a']] ⟨[(['a'], [])]⟩ (by decide)
